import Mathlib

/-!
# Verification of the rspamd composites manager

Shallow embedding of `src/src/libserver/composites/composites_manager.cxx`:
the composite registration interface (`add_composite`, two overloads), the
composites map loader (`map_cbdata::map_fin`) and the two-phase dependency
classification (`process_dependencies`).

Parts of the repository that this file depends on but that are not among the
visible sources (`composites_internal.hxx`, `libutil/cxx/util.hxx`, the
expression library, the symcache flag query and `rspamd_config_add_symbol`)
are modelled from the specification; each such definition carries a doc
comment starting with `Modelled from the spec:`.  The expression parser
(`rspamd_parse_expression`) is kept abstract: every operation is parametric
in a `parse` function returning `Option RspamdExpression`, so theorems
quantify over all parser behaviours.
-/

namespace Rspamd

/-- Embedding of C doubles for the score plumbing: we only need finite values
(as rationals) and NaN (`std::isnan`); this is the standard shallow embedding
of the float checks the composites code performs. -/
inductive RDouble where
  | nan : RDouble
  | val (q : ℚ) : RDouble
deriving DecidableEq, Repr

/-- `std::isnan`. -/
def RDouble.isNan : RDouble → Bool
  | .nan => true
  | .val _ => false

/-- `G_MAXFLOAT` (FLT_MAX = 2^128 - 2^104), as a natural number. -/
def G_MAXFLOAT : Nat := 340282346638528859811704183484516925440

/-- `fabs(x) >= G_MAXFLOAT` (false on NaN, as every comparison with NaN is).
For a rational `q` in lowest terms, `G_MAXFLOAT ≤ |q|` iff
`G_MAXFLOAT * q.den ≤ |q.num|` (the denominator is positive); the integer
form is used so that the predicate evaluates by kernel reduction. -/
def RDouble.fabsGeMaxfloat : RDouble → Bool
  | .nan => false
  | .val q => decide (G_MAXFLOAT * q.den ≤ q.num.natAbs)

/-- `enum rspamd_composite_policy` from `composites_internal.hxx` as used by
`composites_manager.cxx`. -/
inductive rspamd_composite_policy where
  | REMOVE_ALL
  | REMOVE_SYMBOL
  | REMOVE_WEIGHT
  | LEAVE
  | UNKNOWN
deriving DecidableEq, Repr

/-- `composite_policy_from_str` (composites_manager.cxx:31-52): lookup in the
static name map; unknown strings map to `UNKNOWN`. -/
def composite_policy_from_str (inp : String) : rspamd_composite_policy :=
  if inp = "remove" then .REMOVE_ALL
  else if inp = "remove_all" then .REMOVE_ALL
  else if inp = "default" then .REMOVE_ALL
  else if inp = "remove_symbol" then .REMOVE_SYMBOL
  else if inp = "remove_weight" then .REMOVE_WEIGHT
  else if inp = "leave" then .LEAVE
  else if inp = "remove_none" then .LEAVE
  else .UNKNOWN

/-- The three symcache flag bits that `symbol_needs_second_pass` inspects
(`SYMBOL_TYPE_POSTFILTER | SYMBOL_TYPE_CLASSIFIER | SYMBOL_TYPE_NOSTAT`);
other flag bits never participate in composite dependency analysis, so they
are not represented. -/
structure SymcacheFlags where
  postfilter : Bool
  classifier : Bool
  nostat : Bool
deriving DecidableEq, Repr

/-- `flags & (SYMBOL_TYPE_POSTFILTER | SYMBOL_TYPE_CLASSIFIER | SYMBOL_TYPE_NOSTAT) != 0`. -/
def SymcacheFlags.second_pass_bits (f : SymcacheFlags) : Bool :=
  f.postfilter || f.classifier || f.nostat

/-- Modelled from the spec: a scored symbol entry produced by
`rspamd_config_add_symbol` (declared in `cfg_file.h`, body not among the
visible sources).  The spec's configuration section is
`symbols { <name> = { score, description, group, priority } }`. -/
structure SymbolDef where
  name : String
  score : RDouble
  description : String
  group : String
  priority : Nat
deriving DecidableEq, Repr

/-- The slice of `struct rspamd_config` the composites manager touches:
`unknown_weight`, the symcache handle (`cfg->cache`, modelled as an
association list from symbol name to its second-pass-relevant flag bits,
absent symbols having no bits set) and the scored-symbol table written by
`rspamd_config_add_symbol`. -/
structure RspamdConfig where
  unknown_weight : RDouble
  cache : Option (List (String × SymcacheFlags))
  symbols : List SymbolDef
deriving DecidableEq

/-- Modelled from the spec: `rspamd_config_add_symbol` registers a scored
symbol for the composite in the configuration metric (newest entry wins on
lookup). -/
def rspamd_config_add_symbol (cfg : RspamdConfig) (name : String) (score : RDouble)
    (description : String) (group : String) (priority : Nat) : RspamdConfig :=
  { cfg with symbols := ⟨name, score, description, group, priority⟩ :: cfg.symbols }

/-- Score of the registered symbol `name` (newest registration first). -/
def findSymbolScore (cfg : RspamdConfig) (name : String) : Option RDouble :=
  (cfg.symbols.find? (fun s => s.name = name)).map SymbolDef.score

/-- A parsed `rspamd_expression`, embedded by its observable behaviour in
this translation unit: `rspamd_expression_atom_foreach` yields the atom
tokens in order, so the expression is its list of atom token strings. -/
structure RspamdExpression where
  atoms : List String
deriving DecidableEq, Repr

/-- `struct rspamd_composite` (composites_internal.hxx): symbol name, parsed
expression, the original expression string, removal policy (the enum default
is `REMOVE_ALL`, which is also what policy string "default" maps to) and the
derived `second_pass` flag (initially false). -/
structure rspamd_composite where
  id : Nat
  sym : String
  expr : RspamdExpression
  str_expr : String
  policy : rspamd_composite_policy := .REMOVE_ALL
  second_pass : Bool := false
deriving DecidableEq, Repr

/-- `class composites_manager`: the owned composites in insertion order
(`all_composites`, ids are insertion indices), the name → composite map
(`composites`, an association list whose head entry wins, matching hash-map
overwrite), the two phase vectors, and the configuration handle. -/
structure composites_manager where
  cfg : RspamdConfig
  all_composites : List rspamd_composite
  composites : List (String × Nat)
  first_pass_composites : List Nat
  second_pass_composites : List Nat
deriving DecidableEq

/-- A freshly constructed manager over `cfg`. -/
def composites_manager.mk_empty (cfg : RspamdConfig) : composites_manager :=
  ⟨cfg, [], [], [], []⟩

/-- `composites_manager::find` — name-map lookup, returning the index of the
composite in `all_composites`. -/
def composites_manager.find (cm : composites_manager) (name : String) : Option Nat :=
  cm.composites.lookup name

/-- `composites.contains(composite_name)`. -/
def composites_manager.contains (cm : composites_manager) (name : String) : Bool :=
  (cm.find name).isSome

/-- Atom list of composite number `cid` (out-of-range ids have no atoms). -/
def composites_manager.compAtoms (cm : composites_manager) (cid : Nat) : List String :=
  match cm.all_composites[cid]? with
  | some c => c.expr.atoms
  | none => []

/-- Modelled from the spec: `composites_manager::new_composite`
(composites_internal.hxx, not among the visible sources) appends a fresh
composite to `all_composites` (its id is its insertion index) and points the
name map at it; this is forced by the visible duplicate checks
(`composites.contains`) and `find` lookups working at all. -/
def composites_manager.new_composite (cm : composites_manager) (name : String)
    (expr : RspamdExpression) (str_expr : String) : composites_manager × Nat :=
  let cid := cm.all_composites.length
  ({ cm with
      all_composites := cm.all_composites ++
        [{ id := cid, sym := name, expr := expr, str_expr := str_expr }],
      composites := (name, cid) :: cm.composites },
   cid)

/-- Set the policy field of composite `cid` (the `composite->policy = ...`
assignment). -/
def composites_manager.set_policy (cm : composites_manager) (cid : Nat)
    (p : rspamd_composite_policy) : composites_manager :=
  { cm with all_composites :=
      cm.all_composites.map (fun c => if c.id = cid then { c with policy := p } else c) }

/-- The UCL composite object, embedded by the fields `add_composite` looks
up.  `Option` fields are `none` when the key is absent or the safe
conversion fails (`ucl_object_tostring_safe` / `ucl_object_todouble_safe`). -/
structure UclComposite where
  enabled : Option Bool := none
  expression : Option String := none
  score : Option RDouble := none
  group : Option String := none
  description : Option String := none
  groups : List String := []
  policy : Option String := none
  priority : Nat := 0

/-- `composites_manager::add_composite(std::string_view, const ucl_object_t *, bool)`
(composites_manager.cxx:54-149), parametric in the expression parser.
Returns the new manager state and the result (`none` = `nullptr`).
Branch order follows the source exactly: `enabled` check, duplicate check
(silent duplicates refused, non-silent only warned), expression lookup,
expression parse, `new_composite`, default score from `unknown_weight`,
`rspamd_config_add_symbol`, then the policy check — which on an unknown
policy returns `nullptr` *after* the composite and its symbol were
registered. -/
def composites_manager.add_composite_ucl (parse : String → Option RspamdExpression)
    (cm : composites_manager) (composite_name : String) (obj : UclComposite)
    (silent_duplicate : Bool) : composites_manager × Option Nat :=
  if obj.enabled = some false then (cm, none)
  else if cm.contains composite_name ∧ silent_duplicate then (cm, none)
  else
    match obj.expression with
    | none => (cm, none)
    | some composite_expression =>
      match parse composite_expression with
      | none => (cm, none)
      | some expr =>
        let (cm, cid) := cm.new_composite composite_name expr composite_expression
        let score :=
          match obj.score with
          | some s => s
          | none => if cm.cfg.unknown_weight.isNan then RDouble.val 0 else cm.cfg.unknown_weight
        let group := obj.group.getD "composite"
        let description := obj.description.getD composite_expression
        let cm := { cm with cfg :=
          rspamd_config_add_symbol cm.cfg composite_name score description group obj.priority }
        match obj.policy with
        | none => (cm, some cid)
        | some pstr =>
          let cm := cm.set_policy cid (composite_policy_from_str pstr)
          if composite_policy_from_str pstr = .UNKNOWN then (cm, none)
          else (cm, some cid)

/-- `composites_manager::add_composite(std::string_view, std::string_view, bool, double)`
(composites_manager.cxx:151-190), parametric in the expression parser.
Duplicates are refused when `silent_duplicate` (with a debug log), else only
warned about; a NaN score falls back to `unknown_weight` (0.0 when that is
itself NaN); the scored symbol is registered before `new_composite`. -/
def composites_manager.add_composite_str (parse : String → Option RspamdExpression)
    (cm : composites_manager) (composite_name : String)
    (composite_expression : String) (silent_duplicate : Bool)
    (score : RDouble) : composites_manager × Option Nat :=
  if cm.contains composite_name ∧ silent_duplicate then (cm, none)
  else
    match parse composite_expression with
    | none => (cm, none)
    | some expr =>
      let final_score :=
        if score.isNan then
          (if cm.cfg.unknown_weight.isNan then RDouble.val 0 else cm.cfg.unknown_weight)
        else score
      let cm := { cm with cfg :=
        rspamd_config_add_symbol cm.cfg composite_name final_score composite_name "composite" 0 }
      let (cm, cid) := cm.new_composite composite_name expr composite_expression
      (cm, some cid)

/-- Modelled from the spec: `rspamd::string_split_on` (libutil/cxx/util.hxx,
not among the visible sources) splits at the first occurrence of the
separator; when the separator is absent the second component is empty —
forced by the map format `<name>:<score> <expression>` and the
missing-score handling of `map_fin`. -/
def string_split_on_chars : List Char → Char → List Char × List Char
  | [], _ => ([], [])
  | x :: xs, c =>
    if x = c then ([], xs)
    else
      let r := string_split_on_chars xs c
      (x :: r.1, r.2)

/-- String version of `string_split_on`. -/
def string_split_on (s : String) (c : Char) : String × String :=
  let r := string_split_on_chars s.toList c
  (String.mk r.1, String.mk r.2)

/-- One line of `map_cbdata::map_fin`'s `string_foreach_line` body
(composites_manager.cxx:234-263), parametric in the expression parser and in
`g_ascii_strtod` (glib, external).  The `take 127` mirrors the 128-byte
`numbuf` truncation.  Scores with `fabs >= G_MAXFLOAT` or NaN are rejected;
an empty score field is rejected ("missing score"); otherwise
`add_composite` is called with `silent_duplicate = true`. -/
def processMapLine (parse : String → Option RspamdExpression)
    (strtod : String → RDouble) (cm : composites_manager)
    (line : String) : composites_manager :=
  let p := string_split_on line ' '
  let q := string_split_on p.1 ':'
  if q.2 ≠ "" then
    let num := strtod (String.mk (q.2.toList.take 127))
    if num.fabsGeMaxfloat || num.isNan then cm
    else (cm.add_composite_str parse q.1 p.2 true num).1
  else cm

/-- Modelled from the spec: `rspamd::string_foreach_line` over the
accumulated map buffer — the map format is line-oriented
(`<name>:<score> <expression>\n`), so `map_fin` processes each
newline-separated line in order. -/
def processMapBuffer (parse : String → Option RspamdExpression)
    (strtod : String → RDouble) (cm : composites_manager)
    (buf : String) : composites_manager :=
  (buf.splitOn "\n").foldl (processMapLine parse strtod) cm

/-! ## Dependency classification (`process_dependencies`) -/

/-- The skip test of `composite_dep_callback` (composites_manager.cxx:374-376):
`atom->len == 0 || begin[0]` is one of `& | ! ( )`. -/
def is_op_token (a : String) : Bool :=
  match a.toList with
  | [] => true
  | ch :: _ => ch = '&' ∨ ch = '|' ∨ ch = '!' ∨ ch = '(' ∨ ch = ')'

/-- `symbol_needs_second_pass` (composites_manager.cxx:339-350): false when
there is no symcache, else true iff the symbol's flags contain
postfilter/classifier/nostat bits.  The symcache flag query
(`rspamd_symcache_get_symbol_flags`, not among the visible sources) is
modelled as association-list lookup; unregistered symbols have no flags. -/
def symbol_needs_second_pass (cfg : RspamdConfig) (symbol_name : String) : Bool :=
  match cfg.cache with
  | none => false
  | some entries => (((entries.lookup symbol_name).getD ⟨false, false, false⟩).second_pass_bits)

/-- What `composite_dep_callback` decides for one atom once the
`needs_second_pass` early-out is taken apart: skip operator tokens, skip
atoms naming another composite (handled by the transitive pass), otherwise
ask `symbol_needs_second_pass`. -/
def atom_induces_second_pass (cm : composites_manager) (atom : String) : Bool :=
  if is_op_token atom then false
  else if (cm.find atom).isSome then false
  else symbol_needs_second_pass cm.cfg atom

/-- `composite_dep_callback` (composites_manager.cxx:359-393) as a fold step
over the atoms, accumulating `cbd.needs_second_pass`. -/
def composite_dep_step (cm : composites_manager) (acc : Bool) (atom : String) : Bool :=
  if acc then acc
  else if is_op_token atom then acc
  else if (cm.find atom).isSome then acc
  else symbol_needs_second_pass cm.cfg atom

/-- The direct pass body for one composite: `rspamd_expression_atom_foreach`
with `composite_dep_callback` (the foreach, not among the visible sources,
is modelled as folding over the expression's atom tokens in order). -/
def composite_needs_second_pass_direct (cm : composites_manager) (cid : Nat) : Bool :=
  (cm.compAtoms cid).foldl (composite_dep_step cm) false

/-- The direct pass (composites_manager.cxx:408-420): insert every composite
whose expression walk set `needs_second_pass` into the (unordered) set. -/
def direct_second_pass_set (cm : composites_manager) (ids : List Nat) : Finset Nat :=
  ids.foldl (fun s cid => if composite_needs_second_pass_direct cm cid then insert cid s else s) ∅

/-- The transitive check of one composite (the lambda at
composites_manager.cxx:439-447): some atom names another composite that is
already in `second_pass_set`. -/
def composite_has_second_pass_dep (cm : composites_manager) (s : Finset Nat) (cid : Nat) : Bool :=
  (cm.compAtoms cid).any (fun atom =>
    match cm.find atom with
    | some d => decide (d ∈ s)
    | none => false)

/-- One composite of the do/while body (composites_manager.cxx:425-455):
skip members of the set, otherwise insert (and flag `changed`) when the
transitive check fires against the *current* set. -/
def trans_step (cm : composites_manager) (acc : Finset Nat × Bool) (cid : Nat) :
    Finset Nat × Bool :=
  if cid ∈ acc.1 then acc
  else if composite_has_second_pass_dep cm acc.1 cid then (insert cid acc.1, true)
  else acc

/-- One full pass of the do/while loop over `first_pass_composites`. -/
def trans_pass (cm : composites_manager) (ids : List Nat) (s : Finset Nat) :
    Finset Nat × Bool :=
  ids.foldl (trans_step cm) (s, false)

/-- The `do { ... } while (changed)` loop, fuelled; `process_dependencies`
runs it with fuel `ids.length + 1`, which is proved sufficient below
(the set grows by at least one composite per repeated pass). -/
def trans_loop (cm : composites_manager) (ids : List Nat) : Nat → Finset Nat → Finset Nat
  | 0, s => s
  | Nat.succ fuel, s =>
    let r := trans_pass cm ids s
    if r.2 then trans_loop cm ids fuel r.1 else r.1

/-- The list `first_pass_composites` holds after step 1 of
`process_dependencies` (pushing every composite onto the existing list). -/
def composites_manager.first_ids (cm : composites_manager) : List Nat :=
  cm.first_pass_composites ++ cm.all_composites.map rspamd_composite.id

/-- The final `second_pass_set` computed by `process_dependencies`. -/
def composites_manager.second_pass_result (cm : composites_manager) : Finset Nat :=
  trans_loop cm cm.first_ids (cm.first_ids.length + 1)
    (direct_second_pass_set cm cm.first_ids)

/-- `composites_manager::process_dependencies` (composites_manager.cxx:395-473):
push all composites onto `first_pass_composites`, run the direct pass, run
the transitive fixed-point loop, then move the members of the resulting set
into `second_pass_composites` (setting their `second_pass` flag) and erase
them from `first_pass_composites`. -/
def composites_manager.process_dependencies (cm : composites_manager) : composites_manager :=
  let s := cm.second_pass_result
  { cm with
    all_composites :=
      cm.all_composites.map (fun c => if c.id ∈ s then { c with second_pass := true } else c),
    first_pass_composites := cm.first_ids.filter (fun cid => ¬ cid ∈ s),
    second_pass_composites :=
      cm.second_pass_composites ++ cm.first_ids.filter (fun cid => cid ∈ s) }

/-- A manager as it stands when `process_dependencies` is invoked at freeze:
the phase vectors are still empty, composite ids equal their insertion
indices and no `second_pass` flag is set yet.  Every manager built from
`mk_empty` by the `add_composite` operations satisfies this. -/
def composites_manager.wf (cm : composites_manager) : Prop :=
  cm.first_pass_composites = [] ∧ cm.second_pass_composites = [] ∧
  cm.all_composites.map rspamd_composite.id = List.range cm.all_composites.length ∧
  ∀ c ∈ cm.all_composites, c.second_pass = false

/-- The spec's classification (§4.3.2), as a least fixed point: a composite
is second-pass iff some atom of its expression names a (non-composite)
symbol whose registered flags include postfilter/classifier/nostat, or names
another composite that is itself second-pass. -/
inductive spec_second_pass (cm : composites_manager) : Nat → Prop
  | flagged (cid : Nat) (atom : String) :
      cid ∈ cm.all_composites.map rspamd_composite.id →
      atom ∈ cm.compAtoms cid →
      cm.find atom = none →
      symbol_needs_second_pass cm.cfg atom = true →
      spec_second_pass cm cid
  | composite_ref (cid : Nat) (atom : String) (d : Nat) :
      cid ∈ cm.all_composites.map rspamd_composite.id →
      atom ∈ cm.compAtoms cid →
      cm.find atom = some d →
      spec_second_pass cm d →
      spec_second_pass cm cid

/-- The symcache entries list (empty when there is no cache). -/
def cache_entries (cfg : RspamdConfig) : List (String × SymcacheFlags) :=
  cfg.cache.getD []

/-! ## Concrete fixtures for witnesses and counterexamples -/

/-- A concrete parser: every string parses to the single-atom expression
consisting of that string. -/
def parse0 : String → Option RspamdExpression := fun s => some ⟨[s]⟩

/-- A concrete `g_ascii_strtod` stand-in returning 1.0. -/
def strtod0 : String → RDouble := fun _ => RDouble.val 1

/-- A concrete configuration: `unknown_weight = 7`, no symcache. -/
def cfg0 : RspamdConfig := ⟨RDouble.val 7, none, []⟩

/-- The empty manager over `cfg0`. -/
def cm0 : composites_manager := composites_manager.mk_empty cfg0

/-- A manager already holding a composite `X` with expression string `B`. -/
def cm1 : composites_manager :=
  (cm0.add_composite_str parse0 "X" "B" false (RDouble.val 2)).1

/-- A UCL object with a parseable expression and an invalid policy string. -/
def objP : UclComposite := { expression := some "A", policy := some "bogus" }

/-- A concrete manager for exercising the dependency classification: symbol
`PF` carries the postfilter flag; composite `X` references `PF` (direct
second pass), composite `Y` references `X` (transitive second pass),
composite `Z` references a plain symbol `OTHER` (first pass). -/
def cm2 : composites_manager :=
  ⟨⟨RDouble.val 0, some [("PF", ⟨true, false, false⟩)], []⟩,
   [⟨0, "X", ⟨["PF"]⟩, "PF", .REMOVE_ALL, false⟩,
    ⟨1, "Y", ⟨["X"]⟩, "X", .REMOVE_ALL, false⟩,
    ⟨2, "Z", ⟨["OTHER"]⟩, "OTHER", .REMOVE_ALL, false⟩],
   [("X", 0), ("Y", 1), ("Z", 2)],
   [], []⟩

/-! ## Helper lemmas -/

theorem lookup_cons_self {β : Type} (name : String) (b : β) (l : List (String × β)) :
    List.lookup name ((name, b) :: l) = some b := by
  simp [List.lookup]

theorem new_composite_cfg (cm : composites_manager) (name : String)
    (expr : RspamdExpression) (s : String) :
    (cm.new_composite name expr s).1.cfg = cm.cfg := rfl

/-- Every path of the UCL `add_composite` with a present-but-unknown policy
string returns `nullptr`. -/
theorem add_ucl_snd_none_of_bad_policy (parse : String → Option RspamdExpression)
    (cm : composites_manager) (name : String) (obj : UclComposite) (silent : Bool)
    (p : String) (hp : obj.policy = some p)
    (hbad : composite_policy_from_str p = .UNKNOWN) :
    (cm.add_composite_ucl parse name obj silent).2 = none := by
  unfold composites_manager.add_composite_ucl
  split_ifs <;> try rfl
  cases hoe : obj.expression with
  | none => rfl
  | some e =>
    cases hpe : parse e with
    | none => simp [hpe]
    | some expr => simp [hpe, hp, hbad]

/-! ## Lemmas about the dependency-classification loop -/

theorem composite_dep_step_eq (cm : composites_manager) (acc : Bool) (atom : String) :
    composite_dep_step cm acc atom = (acc || atom_induces_second_pass cm atom) := by
  cases acc <;> rfl

theorem foldl_dep_step_any (cm : composites_manager) (l : List String) :
    ∀ b, l.foldl (composite_dep_step cm) b = (b || l.any (atom_induces_second_pass cm)) := by
  induction l with
  | nil => intro b; simp
  | cons a l ih =>
    intro b
    rw [List.foldl_cons, composite_dep_step_eq, ih, List.any_cons, Bool.or_assoc]

theorem atom_induces_iff (cm : composites_manager) (atom : String) :
    atom_induces_second_pass cm atom = true ↔
      (is_op_token atom = false ∧ cm.find atom = none ∧
       symbol_needs_second_pass cm.cfg atom = true) := by
  unfold atom_induces_second_pass
  split_ifs with h1 h2 <;>
    simp_all [Option.isSome_iff_exists, Option.eq_none_iff_forall_not_mem]

theorem composite_needs_second_pass_direct_iff (cm : composites_manager) (cid : Nat) :
    composite_needs_second_pass_direct cm cid = true ↔
      ∃ atom ∈ cm.compAtoms cid, atom_induces_second_pass cm atom = true := by
  rw [composite_needs_second_pass_direct, foldl_dep_step_any]
  simp [List.any_eq_true]

theorem direct_foldl_mem (cm : composites_manager) (l : List Nat) :
    ∀ (s : Finset Nat) (x : Nat),
      x ∈ l.foldl
        (fun s cid => if composite_needs_second_pass_direct cm cid then insert cid s else s) s ↔
      (x ∈ s ∨ (x ∈ l ∧ composite_needs_second_pass_direct cm x = true)) := by
  induction l with
  | nil => intro s x; simp
  | cons cid l ih =>
    intro s x
    rw [List.foldl_cons]
    by_cases hc : composite_needs_second_pass_direct cm cid
    · rw [if_pos hc, ih]
      simp only [Finset.mem_insert, List.mem_cons]
      constructor
      · rintro ((rfl | hs) | ⟨hl, hx⟩)
        · exact Or.inr ⟨Or.inl rfl, hc⟩
        · exact Or.inl hs
        · exact Or.inr ⟨Or.inr hl, hx⟩
      · rintro (hs | ⟨rfl | hl, hx⟩)
        · exact Or.inl (Or.inr hs)
        · exact Or.inl (Or.inl rfl)
        · exact Or.inr ⟨hl, hx⟩
    · rw [if_neg hc, ih]
      simp only [List.mem_cons]
      constructor
      · rintro (hs | ⟨hl, hx⟩)
        · exact Or.inl hs
        · exact Or.inr ⟨Or.inr hl, hx⟩
      · rintro (hs | ⟨rfl | hl, hx⟩)
        · exact Or.inl hs
        · exact absurd hx hc
        · exact Or.inr ⟨hl, hx⟩

theorem direct_second_pass_set_mem (cm : composites_manager) (l : List Nat) (x : Nat) :
    x ∈ direct_second_pass_set cm l ↔
      (x ∈ l ∧ composite_needs_second_pass_direct cm x = true) := by
  rw [direct_second_pass_set, direct_foldl_mem]
  simp

theorem trans_foldl_grow (cm : composites_manager) (l : List Nat) :
    ∀ acc : Finset Nat × Bool, acc.1 ⊆ (l.foldl (trans_step cm) acc).1 := by
  induction l with
  | nil => intro acc; simp
  | cons cid l ih =>
    intro acc
    rw [List.foldl_cons]
    refine subset_trans ?_ (ih (trans_step cm acc cid))
    unfold trans_step
    split_ifs <;> simp [Finset.subset_insert]

theorem trans_step_sticky (cm : composites_manager) (acc : Finset Nat × Bool) (cid : Nat)
    (h : acc.2 = true) : (trans_step cm acc cid).2 = true := by
  unfold trans_step
  split_ifs <;> simp [h]

theorem trans_foldl_sticky (cm : composites_manager) (l : List Nat) :
    ∀ acc : Finset Nat × Bool, acc.2 = true → (l.foldl (trans_step cm) acc).2 = true := by
  induction l with
  | nil => intro acc h; simpa using h
  | cons cid l ih =>
    intro acc h
    rw [List.foldl_cons]
    exact ih _ (trans_step_sticky cm acc cid h)

theorem trans_foldl_unchanged (cm : composites_manager) (l : List Nat) :
    ∀ acc : Finset Nat × Bool, (l.foldl (trans_step cm) acc).2 = false →
      l.foldl (trans_step cm) acc = acc ∧ acc.2 = false := by
  induction l with
  | nil => intro acc h; exact ⟨rfl, by simpa using h⟩
  | cons cid l ih =>
    intro acc h
    rw [List.foldl_cons] at h ⊢
    obtain ⟨heq, hstep2⟩ := ih _ h
    have hstep : trans_step cm acc cid = acc := by
      unfold trans_step
      split_ifs with h1 h2
      · rfl
      · exfalso
        have : (trans_step cm acc cid).2 = true := by
          unfold trans_step
          rw [if_neg h1, if_pos h2]
        rw [this] at hstep2
        exact absurd hstep2 (by decide)
      · rfl
    rw [hstep] at heq hstep2 ⊢
    exact ⟨heq, hstep2⟩

theorem trans_foldl_no_change_checks (cm : composites_manager) (l : List Nat) :
    ∀ s : Finset Nat, (l.foldl (trans_step cm) (s, false)).2 = false →
      ∀ cid ∈ l, cid ∈ s ∨ composite_has_second_pass_dep cm s cid = false := by
  induction l with
  | nil => intro s _ cid hcid; exact absurd hcid (List.not_mem_nil cid)
  | cons c l ih =>
    intro s h cid hcid
    rw [List.foldl_cons] at h
    by_cases hmem : c ∈ s
    · have hstep : trans_step cm (s, false) c = (s, false) := by
        unfold trans_step; rw [if_pos hmem]
      rw [hstep] at h
      rcases List.mem_cons.mp hcid with rfl | hl
      · exact Or.inl hmem
      · exact ih s h cid hl
    · by_cases hdep : composite_has_second_pass_dep cm s c = true
      · exfalso
        have hstep : trans_step cm (s, false) c = (insert c s, true) := by
          unfold trans_step; rw [if_neg hmem, if_pos hdep]
        rw [hstep] at h
        have := trans_foldl_sticky cm l (insert c s, true) rfl
        rw [this] at h
        exact absurd h (by decide)
      · have hstep : trans_step cm (s, false) c = (s, false) := by
          unfold trans_step; rw [if_neg hmem, if_neg hdep]
        rw [hstep] at h
        rcases List.mem_cons.mp hcid with rfl | hl
        · exact Or.inr (Bool.eq_false_iff.mpr hdep)
        · exact ih s h cid hl

theorem trans_foldl_subset_union (cm : composites_manager) (l : List Nat) :
    ∀ acc : Finset Nat × Bool, (l.foldl (trans_step cm) acc).1 ⊆ acc.1 ∪ l.toFinset := by
  induction l with
  | nil => intro acc; simp
  | cons cid l ih =>
    intro acc
    rw [List.foldl_cons]
    refine subset_trans (ih (trans_step cm acc cid)) ?_
    have hstep : (trans_step cm acc cid).1 ⊆ insert cid acc.1 := by
      unfold trans_step
      split_ifs <;> simp [Finset.subset_insert]
    calc (trans_step cm acc cid).1 ∪ l.toFinset
        ⊆ insert cid acc.1 ∪ l.toFinset := Finset.union_subset_union hstep (subset_refl _)
      _ = acc.1 ∪ (cid :: l).toFinset := by
          rw [List.toFinset_cons, Finset.insert_union, Finset.union_insert]

theorem trans_foldl_changed_card (cm : composites_manager) (l : List Nat) :
    ∀ acc : Finset Nat × Bool, acc.2 = false → (l.foldl (trans_step cm) acc).2 = true →
      acc.1.card < (l.foldl (trans_step cm) acc).1.card := by
  induction l with
  | nil => intro acc h1 h2; rw [List.foldl_nil] at h2; rw [h1] at h2; exact absurd h2 (by simp)
  | cons cid l ih =>
    intro acc h1 h2
    rw [List.foldl_cons] at h2 ⊢
    by_cases hmem : cid ∈ acc.1
    · have hstep : trans_step cm acc cid = acc := by unfold trans_step; rw [if_pos hmem]
      rw [hstep] at h2 ⊢
      exact ih acc h1 h2
    · by_cases hdep : composite_has_second_pass_dep cm acc.1 cid = true
      · have hstep : trans_step cm acc cid = (insert cid acc.1, true) := by
          unfold trans_step
          rw [if_neg hmem, if_pos hdep]
        rw [hstep]
        calc acc.1.card < (insert cid acc.1).card := by
              rw [Finset.card_insert_of_not_mem hmem]; omega
          _ ≤ (l.foldl (trans_step cm) (insert cid acc.1, true)).1.card :=
              Finset.card_le_card (trans_foldl_grow cm l (insert cid acc.1, true))
      · have hstep : trans_step cm acc cid = acc := by
          unfold trans_step
          rw [if_neg hmem, if_neg hdep]
        rw [hstep] at h2 ⊢
        exact ih acc h1 h2

theorem trans_foldl_all_mem (cm : composites_manager) (l : List Nat) :
    ∀ s : Finset Nat, (∀ cid ∈ l, cid ∈ s) → l.foldl (trans_step cm) (s, false) = (s, false) := by
  induction l with
  | nil => intro s _; rfl
  | cons cid l ih =>
    intro s h
    rw [List.foldl_cons]
    have hstep : trans_step cm (s, false) cid = (s, false) := by
      unfold trans_step
      rw [if_pos (h cid (List.mem_cons_self cid l))]
    rw [hstep]
    exact ih s (fun c hc => h c (List.mem_cons_of_mem cid hc))

theorem trans_loop_grow (cm : composites_manager) (ids : List Nat) :
    ∀ (fuel : Nat) (s : Finset Nat), s ⊆ trans_loop cm ids fuel s := by
  intro fuel
  induction fuel with
  | zero => intro s; exact subset_refl s
  | succ fuel ih =>
    intro s
    unfold trans_loop
    dsimp only
    split
    · exact subset_trans (trans_foldl_grow cm ids (s, false)) (ih _)
    · exact trans_foldl_grow cm ids (s, false)

theorem trans_loop_fix (cm : composites_manager) (ids : List Nat) :
    ∀ (fuel : Nat) (s : Finset Nat), (s ∪ ids.toFinset).card ≤ s.card + fuel →
      trans_pass cm ids (trans_loop cm ids fuel s) = (trans_loop cm ids fuel s, false) := by
  intro fuel
  induction fuel with
  | zero =>
    intro s hcard
    have hsub : s ⊆ s ∪ ids.toFinset := Finset.subset_union_left
    have heq : s = s ∪ ids.toFinset :=
      Finset.eq_of_subset_of_card_le hsub (by omega)
    have hids : ∀ cid ∈ ids, cid ∈ s := by
      intro cid hcid
      rw [heq]
      exact Finset.mem_union_right _ (List.mem_toFinset.mpr hcid)
    unfold trans_loop
    exact trans_foldl_all_mem cm ids s hids
  | succ fuel ih =>
    intro s hcard
    unfold trans_loop
    dsimp only
    cases hr : (trans_pass cm ids s).2 with
    | false =>
      rw [if_neg (show ¬(false = true) by decide)]
      have := trans_foldl_unchanged cm ids (s, false) hr
      have heq : trans_pass cm ids s = (s, false) := this.1
      rw [show (trans_pass cm ids s).1 = s from congrArg Prod.fst heq]
      exact heq
    | true =>
      rw [if_pos (show (true : Bool) = true from rfl)]
      apply ih
      have hgrow : s.card < (trans_pass cm ids s).1.card :=
        trans_foldl_changed_card cm ids (s, false) rfl hr
      have hbound : (trans_pass cm ids s).1 ⊆ s ∪ ids.toFinset :=
        trans_foldl_subset_union cm ids (s, false)
      have hsub : (trans_pass cm ids s).1 ∪ ids.toFinset ⊆ s ∪ ids.toFinset := by
        refine Finset.union_subset hbound Finset.subset_union_right
      have := Finset.card_le_card hsub
      omega

theorem trans_foldl_spec_closed (cm : composites_manager) (l : List Nat)
    (hl : ∀ cid ∈ l, cid ∈ cm.all_composites.map rspamd_composite.id) :
    ∀ acc : Finset Nat × Bool, (∀ x ∈ acc.1, spec_second_pass cm x) →
      ∀ x ∈ (l.foldl (trans_step cm) acc).1, spec_second_pass cm x := by
  induction l with
  | nil => intro acc hacc x hx; exact hacc x hx
  | cons cid l ih =>
    intro acc hacc x hx
    rw [List.foldl_cons] at hx
    refine ih (fun c hc => hl c (List.mem_cons_of_mem cid hc)) (trans_step cm acc cid) ?_ x hx
    intro y hy
    unfold trans_step at hy
    split_ifs at hy with h1 h2
    · exact hacc y hy
    · rcases Finset.mem_insert.mp hy with rfl | hmem
      · obtain ⟨atom, hatom, hp⟩ := List.any_eq_true.mp h2
        rcases hfind : cm.find atom with _ | d
        · rw [hfind] at hp; exact absurd hp (by simp)
        · rw [hfind] at hp
          have hd : d ∈ acc.1 := of_decide_eq_true hp
          exact spec_second_pass.composite_ref y atom d
            (hl y (List.mem_cons_self y l)) hatom hfind (hacc d hd)
      · exact hacc y hmem
    · exact hacc y hy

theorem trans_loop_spec_closed (cm : composites_manager) (l : List Nat)
    (hl : ∀ cid ∈ l, cid ∈ cm.all_composites.map rspamd_composite.id) :
    ∀ (fuel : Nat) (s : Finset Nat), (∀ x ∈ s, spec_second_pass cm x) →
      ∀ x ∈ trans_loop cm l fuel s, spec_second_pass cm x := by
  intro fuel
  induction fuel with
  | zero => intro s hs x hx; exact hs x hx
  | succ fuel ih =>
    intro s hs x hx
    unfold trans_loop at hx
    dsimp only at hx
    split at hx
    · exact ih _ (trans_foldl_spec_closed cm l hl (s, false) hs) x hx
    · exact trans_foldl_spec_closed cm l hl (s, false) hs x hx

theorem lookup_flags_mem :
    ∀ (l : List (String × SymcacheFlags)) (a : String) (b : SymcacheFlags),
      l.lookup a = some b → (a, b) ∈ l := by
  intro l
  induction l with
  | nil => intro a b h; exact absurd h (by simp [List.lookup])
  | cons p l ih =>
    intro a b h
    obtain ⟨k, v⟩ := p
    rw [List.lookup] at h
    cases hak : a == k with
    | true =>
      rw [hak] at h
      obtain rfl : v = b := by injection h
      have : a = k := eq_of_beq hak
      subst this
      exact List.mem_cons_self _ _
    | false =>
      rw [hak] at h
      exact List.mem_cons_of_mem _ (ih a b h)

theorem symbol_needs_second_pass_entry (cfg : RspamdConfig) (a : String)
    (h : symbol_needs_second_pass cfg a = true) :
    ∃ p ∈ cache_entries cfg, p.1 = a ∧ p.2.second_pass_bits = true := by
  unfold symbol_needs_second_pass at h
  rcases hc : cfg.cache with _ | entries
  · rw [hc] at h; exact absurd h (by simp)
  · rw [hc] at h
    have h2 : ((entries.lookup a).getD ⟨false, false, false⟩).second_pass_bits = true := h
    rcases hl : entries.lookup a with _ | fl
    · rw [hl] at h2
      exact absurd h2 (by simp [SymcacheFlags.second_pass_bits])
    · rw [hl] at h2
      exact ⟨(a, fl), by simpa [cache_entries, hc] using lookup_flags_mem entries a fl hl,
        rfl, by simpa using h2⟩

theorem first_ids_eq (cm : composites_manager) (hwf : cm.wf) :
    cm.first_ids = cm.all_composites.map rspamd_composite.id := by
  rw [composites_manager.first_ids, hwf.1]
  rfl

/-- The central characterization: membership in the set computed by
`process_dependencies` agrees with the spec's least-fixed-point
classification, provided symbols with postfilter/classifier/nostat flags are
genuine symbol names (not operator tokens and not names of composites). -/
theorem second_pass_result_iff (cm : composites_manager) (hwf : cm.wf)
    (hflags : ∀ p ∈ cache_entries cm.cfg, p.2.second_pass_bits = true →
      is_op_token p.1 = false ∧ cm.find p.1 = none) :
    ∀ x, x ∈ cm.second_pass_result ↔ spec_second_pass cm x := by
  have hids := first_ids_eq cm hwf
  have hl : ∀ cid ∈ cm.first_ids, cid ∈ cm.all_composites.map rspamd_composite.id := by
    intro cid hcid; rwa [hids] at hcid
  have hdirect_spec : ∀ y ∈ direct_second_pass_set cm cm.first_ids, spec_second_pass cm y := by
    intro y hy
    obtain ⟨hyl, hcheck⟩ := (direct_second_pass_set_mem cm cm.first_ids y).mp hy
    obtain ⟨atom, hatom, hind⟩ := (composite_needs_second_pass_direct_iff cm y).mp hcheck
    obtain ⟨_, hfind, hneeds⟩ := (atom_induces_iff cm atom).mp hind
    exact spec_second_pass.flagged y atom (hl y hyl) hatom hfind hneeds
  intro x
  constructor
  · intro hx
    exact trans_loop_spec_closed cm cm.first_ids hl _ _ hdirect_spec x hx
  · intro hspec
    have hfix : trans_pass cm cm.first_ids cm.second_pass_result =
        (cm.second_pass_result, false) := by
      apply trans_loop_fix
      calc (direct_second_pass_set cm cm.first_ids ∪ cm.first_ids.toFinset).card
          ≤ (direct_second_pass_set cm cm.first_ids).card + cm.first_ids.toFinset.card :=
            Finset.card_union_le _ _
        _ ≤ (direct_second_pass_set cm cm.first_ids).card + (cm.first_ids.length + 1) := by
            have := cm.first_ids.toFinset_card_le
            omega
    induction hspec with
    | flagged cid atom hcid hatom hfind hneeds =>
      have hop : is_op_token atom = false ∧ cm.find atom = none := by
        obtain ⟨p, hp, hp1, hp2⟩ := symbol_needs_second_pass_entry cm.cfg atom hneeds
        have := hflags p hp hp2
        rwa [hp1] at this
      have hind : atom_induces_second_pass cm atom = true :=
        (atom_induces_iff cm atom).mpr ⟨hop.1, hfind, hneeds⟩
      have hcheck : composite_needs_second_pass_direct cm cid = true :=
        (composite_needs_second_pass_direct_iff cm cid).mpr ⟨atom, hatom, hind⟩
      have hdir : cid ∈ direct_second_pass_set cm cm.first_ids :=
        (direct_second_pass_set_mem cm cm.first_ids cid).mpr ⟨by rwa [hids], hcheck⟩
      exact trans_loop_grow cm cm.first_ids _ _ hdir
    | composite_ref cid atom d hcid hatom hfind _ ihd =>
      have hchecks := trans_foldl_no_change_checks cm cm.first_ids cm.second_pass_result
        (by rw [show cm.first_ids.foldl (trans_step cm) (cm.second_pass_result, false) =
            trans_pass cm cm.first_ids cm.second_pass_result from rfl, hfix])
      rcases hchecks cid (by rwa [hids]) with hmem | hdep
      · exact hmem
      · exfalso
        have : composite_has_second_pass_dep cm cm.second_pass_result cid = true := by
          refine List.any_eq_true.mpr ⟨atom, hatom, ?_⟩
          rw [hfind]
          exact decide_eq_true ihd
        rw [this] at hdep
        exact absurd hdep (by decide)

/-- C9: a UCL composite object carrying `enabled = false` makes
`add_composite` return `nullptr` without registering anything (the manager,
including the configuration's scored symbols, is unchanged), whatever the
rest of the object holds. -/
theorem disabled_composite_ignored (parse : String → Option RspamdExpression)
    (cm : composites_manager) (name : String) (obj : UclComposite) (silent : Bool)
    (h : obj.enabled = some false) :
    cm.add_composite_ucl parse name obj silent = (cm, none) := by
  simp [composites_manager.add_composite_ucl, h]

/-- C9 witness. -/
theorem disabled_composite_ignored_witness :
    ({ expression := some "A", enabled := some false : UclComposite }).enabled = some false ∧
    cm0.add_composite_ucl parse0 "X" { expression := some "A", enabled := some false } false
      = (cm0, none) :=
  ⟨rfl, disabled_composite_ignored parse0 cm0 "X"
    { expression := some "A", enabled := some false } false rfl⟩

/-- C4: a composite definition whose expression string fails to parse is
rejected by both `add_composite` overloads: the result is `nullptr` and the
manager (hence the set of registered composites and scored symbols) is
unchanged; the function returns normally, so configuration loading
continues. -/
theorem parse_failure_rejected (parse : String → Option RspamdExpression)
    (cm : composites_manager) (name : String) (obj : UclComposite)
    (e estr : String) (silent : Bool) (sc : RDouble)
    (hexpr : obj.expression = some e) (hpe : parse e = none)
    (hps : parse estr = none) :
    cm.add_composite_ucl parse name obj silent = (cm, none) ∧
    cm.add_composite_str parse name estr silent sc = (cm, none) := by
  constructor
  · unfold composites_manager.add_composite_ucl
    split_ifs <;> simp [hexpr, hpe]
  · unfold composites_manager.add_composite_str
    split_ifs <;> simp [hps]

/-- C4 witness. -/
theorem parse_failure_rejected_witness :
    ({ expression := some "A(" : UclComposite }).expression = some "A(" ∧
    (fun _ => none : String → Option RspamdExpression) "A(" = none ∧
    (fun _ => none : String → Option RspamdExpression) "B(" = none ∧
    (cm0.add_composite_ucl (fun _ => none) "X" { expression := some "A(" } false = (cm0, none) ∧
     cm0.add_composite_str (fun _ => none) "X" "B(" false (RDouble.val 1) = (cm0, none)) :=
  ⟨rfl, rfl, rfl,
    parse_failure_rejected (fun _ => none) cm0 "X" { expression := some "A(" }
      "A(" "B(" false (RDouble.val 1) rfl rfl rfl⟩

/-- C8: a map line whose `name:score` field has an empty score part (nothing
after the `:`, or no `:` at all) is rejected with a "missing score" error:
the manager is unchanged, no composite is added. -/
theorem missing_score_line_rejected (parse : String → Option RspamdExpression)
    (strtod : String → RDouble) (cm : composites_manager) (line : String)
    (h : (string_split_on (string_split_on line ' ').1 ':').2 = "") :
    processMapLine parse strtod cm line = cm := by
  simp [processMapLine, h]

/-- C8 witness: the line `X: A` has a `:` separator with no text after it. -/
theorem missing_score_line_rejected_witness :
    (string_split_on (string_split_on "X: A" ' ').1 ':').2 = "" ∧
    processMapLine parse0 strtod0 cm0 "X: A" = cm0 :=
  ⟨by decide, missing_score_line_rejected parse0 strtod0 cm0 "X: A" (by decide)⟩

/-- C2 counterexample: the manager `cm1` already defines composite `X` (with
expression string `B`).  Loading the well-formed map line `X:1.0 A` leaves
the manager unchanged — the prior definition (still `B`) is *not* replaced,
contradicting the claim that well-formed entries replace prior definitions. -/
theorem map_redefinition_refused_cex :
    cm1.contains "X" = true ∧
    processMapLine parse0 strtod0 cm1 "X:1.0 A" = cm1 ∧
    (cm1.find "X").bind (fun i => (cm1.all_composites[i]?).map rspamd_composite.str_expr)
      = some "B" := by decide

/-- C2 (amended): a map line whose name is an already-defined composite is
refused — `add_composite` is called with `silent_duplicate = true`, sees the
duplicate and returns `nullptr` before registering anything, so the manager
(and the prior definition) is left unchanged. -/
theorem map_duplicate_line_keeps_prior (parse : String → Option RspamdExpression)
    (strtod : String → RDouble) (cm : composites_manager) (line : String)
    (hdup : cm.contains (string_split_on (string_split_on line ' ').1 ':').1 = true) :
    processMapLine parse strtod cm line = cm := by
  unfold processMapLine
  dsimp only
  split
  · split
    · rfl
    · simp [composites_manager.add_composite_str, hdup]
  · rfl

/-- C2 (amended) witness. -/
theorem map_duplicate_line_keeps_prior_witness :
    cm1.contains (string_split_on (string_split_on "X:1.0 A" ' ').1 ':').1 = true ∧
    processMapLine parse0 strtod0 cm1 "X:1.0 A" = cm1 :=
  ⟨by decide, map_duplicate_line_keeps_prior parse0 strtod0 cm1 "X:1.0 A" (by decide)⟩

/-- C5 counterexample: adding composite `X` to the empty manager with a
parseable expression but incorrect policy string `bogus` returns `nullptr`,
yet afterwards the composite entry for `X` *and* its scored symbol (score =
`unknown_weight` = 7) are still registered: the rejection is not atomic. -/
theorem policy_rejection_not_atomic_cex :
    (cm0.add_composite_ucl parse0 "X" objP false).2 = none ∧
    (cm0.add_composite_ucl parse0 "X" objP false).1.contains "X" = true ∧
    findSymbolScore (cm0.add_composite_ucl parse0 "X" objP false).1.cfg "X"
      = some (RDouble.val 7) := by decide

/-- C5 (amended): when a composite definition is rejected at freeze time
because its policy string is incorrect, `add_composite` returns `nullptr`
and logs, but the rejection is not atomic: the composite entry and the
scored symbol for that name, both registered before the policy check,
remain in the configuration. -/
theorem policy_rejection_leaves_registration (parse : String → Option RspamdExpression)
    (cm : composites_manager) (name : String) (obj : UclComposite) (silent : Bool)
    (e : String) (expr : RspamdExpression) (p : String)
    (hen : ¬ obj.enabled = some false)
    (hdup : ¬ (cm.contains name = true ∧ silent = true))
    (hexpr : obj.expression = some e) (hparse : parse e = some expr)
    (hpol : obj.policy = some p)
    (hbad : composite_policy_from_str p = .UNKNOWN) :
    (cm.add_composite_ucl parse name obj silent).2 = none ∧
    (cm.add_composite_ucl parse name obj silent).1.contains name = true ∧
    findSymbolScore (cm.add_composite_ucl parse name obj silent).1.cfg name ≠ none := by
  refine ⟨?_, ?_, ?_⟩ <;>
  · unfold composites_manager.add_composite_ucl
    rw [if_neg hen, if_neg hdup, hexpr]
    simp [hparse, hpol, hbad, composites_manager.contains, composites_manager.find,
      composites_manager.set_policy, composites_manager.new_composite,
      findSymbolScore, rspamd_config_add_symbol, List.lookup, List.find?]

/-- C5 (amended) witness. -/
theorem policy_rejection_leaves_registration_witness :
    ¬ objP.enabled = some false ∧ ¬ (cm0.contains "X" = true ∧ False) ∧
    ((cm0.add_composite_ucl parse0 "X" objP false).2 = none ∧
     (cm0.add_composite_ucl parse0 "X" objP false).1.contains "X" = true ∧
     findSymbolScore (cm0.add_composite_ucl parse0 "X" objP false).1.cfg "X" ≠ none) :=
  ⟨by decide, by decide,
    policy_rejection_leaves_registration parse0 cm0 "X" objP false "A" ⟨["A"]⟩ "bogus"
      (by decide) (by simp) rfl rfl rfl (by decide)⟩

/-- C6 counterexample: the policy string `remove` is accepted (it maps to
`REMOVE_ALL`) although it is none of the four names
`remove_all`/`remove_symbol`/`remove_weight`/`leave` — so "accepted iff one
of those four names" is false. -/
theorem policy_four_names_cex :
    composite_policy_from_str "remove" = .REMOVE_ALL ∧
    ¬("remove" = "remove_all" ∨ "remove" = "remove_symbol" ∨
      "remove" = "remove_weight" ∨ "remove" = "leave") := by decide

/-- C6 (amended): a policy string is accepted iff it is one of the seven
names `remove`, `remove_all`, `default`, `remove_symbol`, `remove_weight`,
`leave`, `remove_none`; `remove`/`remove_all`/`default` map to `remove_all`,
`leave`/`remove_none` map to `leave`, and the remaining two map to
themselves; any other policy string maps to `UNKNOWN` and makes
`add_composite` reject the composite (return `nullptr`). -/
theorem policy_names_amended (parse : String → Option RspamdExpression)
    (cm : composites_manager) (name : String) (obj : UclComposite) (silent : Bool)
    (p : String) (hp : obj.policy = some p) :
    (composite_policy_from_str p ≠ .UNKNOWN ↔
      p ∈ (["remove", "remove_all", "default", "remove_symbol", "remove_weight",
            "leave", "remove_none"] : List String)) ∧
    composite_policy_from_str "remove" = .REMOVE_ALL ∧
    composite_policy_from_str "remove_all" = .REMOVE_ALL ∧
    composite_policy_from_str "default" = .REMOVE_ALL ∧
    composite_policy_from_str "remove_symbol" = .REMOVE_SYMBOL ∧
    composite_policy_from_str "remove_weight" = .REMOVE_WEIGHT ∧
    composite_policy_from_str "leave" = .LEAVE ∧
    composite_policy_from_str "remove_none" = .LEAVE ∧
    (composite_policy_from_str p = .UNKNOWN →
      (cm.add_composite_ucl parse name obj silent).2 = none) := by
  refine ⟨?_, by decide, by decide, by decide, by decide, by decide, by decide, by decide,
    fun hbad => add_ucl_snd_none_of_bad_policy parse cm name obj silent p hp hbad⟩
  constructor
  · intro h
    by_contra hmem
    apply h
    simp only [List.mem_cons, List.not_mem_nil, or_false] at hmem
    push_neg at hmem
    obtain ⟨n1, n2, n3, n4, n5, n6, n7⟩ := hmem
    simp [composite_policy_from_str, n1, n2, n3, n4, n5, n6, n7]
  · intro h
    rcases List.mem_cons.mp h with h | h
    · subst h; decide
    rcases List.mem_cons.mp h with h | h
    · subst h; decide
    rcases List.mem_cons.mp h with h | h
    · subst h; decide
    rcases List.mem_cons.mp h with h | h
    · subst h; decide
    rcases List.mem_cons.mp h with h | h
    · subst h; decide
    rcases List.mem_cons.mp h with h | h
    · subst h; decide
    rcases List.mem_cons.mp h with h | h
    · subst h; decide
    · exact absurd h (List.not_mem_nil p)

/-- C6 (amended) witness. -/
theorem policy_names_amended_witness :
    objP.policy = some "bogus" ∧
    (composite_policy_from_str "bogus" ≠ .UNKNOWN ↔
      "bogus" ∈ (["remove", "remove_all", "default", "remove_symbol", "remove_weight",
            "leave", "remove_none"] : List String)) ∧
    (composite_policy_from_str "bogus" = .UNKNOWN →
      (cm0.add_composite_ucl parse0 "X" objP false).2 = none) :=
  ⟨rfl, (policy_names_amended parse0 cm0 "X" objP false "bogus" rfl).1,
    (policy_names_amended parse0 cm0 "X" objP false "bogus" rfl).2.2.2.2.2.2.2.2⟩

/-- C10: when a composite definition provides no score (no `score` key in
the UCL object, or a NaN score through the string interface), the scored
symbol registered for the composite gets the configuration's
`unknown_weight`, or 0.0 when `unknown_weight` is itself NaN. -/
theorem default_score_unknown_weight (parse : String → Option RspamdExpression)
    (cm : composites_manager) (name : String) (obj : UclComposite) (silent : Bool)
    (e estr : String) (expr expr2 : RspamdExpression) (sc : RDouble)
    (hen : ¬ obj.enabled = some false)
    (hdup : ¬ (cm.contains name = true ∧ silent = true))
    (hexpr : obj.expression = some e) (hparse : parse e = some expr)
    (hscore : obj.score = none)
    (hparse2 : parse estr = some expr2) (hnan : sc.isNan = true) :
    findSymbolScore (cm.add_composite_ucl parse name obj silent).1.cfg name =
      some (if cm.cfg.unknown_weight.isNan then RDouble.val 0 else cm.cfg.unknown_weight) ∧
    findSymbolScore (cm.add_composite_str parse name estr silent sc).1.cfg name =
      some (if cm.cfg.unknown_weight.isNan then RDouble.val 0 else cm.cfg.unknown_weight) := by
  constructor
  · unfold composites_manager.add_composite_ucl
    rw [if_neg hen, if_neg hdup, hexpr]
    cases hop : obj.policy with
    | none =>
      simp [hparse, hscore, hop, composites_manager.new_composite, findSymbolScore,
        rspamd_config_add_symbol, List.find?]
    | some pstr =>
      simp only [hparse, hscore, hop, new_composite_cfg]
      split_ifs <;>
      simp [composites_manager.set_policy, composites_manager.new_composite, findSymbolScore,
        rspamd_config_add_symbol, List.find?]
  · unfold composites_manager.add_composite_str
    rw [if_neg hdup]
    simp [hparse2, hnan, composites_manager.new_composite, findSymbolScore,
      rspamd_config_add_symbol, List.find?]

/-- C10 witness: `cm0` has `unknown_weight = 7` (not NaN); a scoreless UCL
composite and a NaN-scored string composite both register score 7. -/
theorem default_score_unknown_weight_witness :
    RDouble.nan.isNan = true ∧
    (findSymbolScore (cm0.add_composite_ucl parse0 "X" { expression := some "A" } false).1.cfg "X" =
      some (if cm0.cfg.unknown_weight.isNan then RDouble.val 0 else cm0.cfg.unknown_weight) ∧
     findSymbolScore (cm0.add_composite_str parse0 "X" "B" false RDouble.nan).1.cfg "X" =
      some (if cm0.cfg.unknown_weight.isNan then RDouble.val 0 else cm0.cfg.unknown_weight)) :=
  ⟨rfl, default_score_unknown_weight parse0 cm0 "X" { expression := some "A" } false
    "A" "B" ⟨["A"]⟩ ⟨["B"]⟩ RDouble.nan (by decide) (by simp [cm0, cfg0]) rfl rfl rfl rfl rfl⟩

/-- C1: at freeze, a composite is classified second-pass iff some atom of
its expression names a symbol whose registered flags include postfilter,
classifier or nostat, or names another composite that is itself second-pass
(closed transitively, as the least fixed point `spec_second_pass`); all
other composites remain first-pass (flag false).  The hypothesis `hflags`
expresses that names carrying those symcache flags are genuine symbol
names: not operator tokens and not names of registered composites (in
rspamd a composite's own symcache entry has type `composite`, never
postfilter/classifier/nostat). -/
theorem composites_second_pass_iff_spec (cm : composites_manager)
    (hwf : cm.wf)
    (hflags : ∀ p ∈ cache_entries cm.cfg, p.2.second_pass_bits = true →
      is_op_token p.1 = false ∧ cm.find p.1 = none) :
    ∀ c ∈ cm.process_dependencies.all_composites,
      (c.second_pass = true ↔ spec_second_pass cm c.id) := by
  intro c hc
  have hall : cm.process_dependencies.all_composites =
      cm.all_composites.map
        (fun c => if c.id ∈ cm.second_pass_result then { c with second_pass := true } else c) :=
    rfl
  rw [hall, List.mem_map] at hc
  obtain ⟨orig, horig, hceq⟩ := hc
  have hiff := second_pass_result_iff cm hwf hflags orig.id
  by_cases hmem : orig.id ∈ cm.second_pass_result
  · rw [if_pos hmem] at hceq
    subst hceq
    exact iff_of_true rfl (hiff.mp hmem)
  · rw [if_neg hmem] at hceq
    subst hceq
    exact iff_of_false (by simp [hwf.2.2.2 orig horig]) (fun hs => hmem (hiff.mpr hs))

/-- C1 witness: in `cm2`, `X` (references flagged symbol `PF`) and `Y`
(references `X`) are second-pass, `Z` is not. -/
theorem composites_second_pass_iff_spec_witness :
    cm2.wf ∧
    (∀ p ∈ cache_entries cm2.cfg, p.2.second_pass_bits = true →
      is_op_token p.1 = false ∧ cm2.find p.1 = none) ∧
    (∀ c ∈ cm2.process_dependencies.all_composites,
      (c.second_pass = true ↔ spec_second_pass cm2 c.id)) :=
  ⟨⟨rfl, rfl, by decide, by decide⟩, by decide,
    composites_second_pass_iff_spec cm2 ⟨rfl, rfl, by decide, by decide⟩ (by decide)⟩

/-- C3: the `do/while (changed)` classification loop terminates for every
finite set of composites: each pass is monotone (the second-pass set only
grows), and the set `process_dependencies` computes is a true fixed point —
one further full pass over all composites flips nothing (`changed = false`),
which is exactly the loop's exit condition, reached within the
`|composites| + 1` passes the fuelled embedding allows. -/
theorem second_pass_classification_terminates (cm : composites_manager) :
    (∀ s : Finset Nat, s ⊆ (trans_pass cm cm.first_ids s).1) ∧
    trans_pass cm cm.first_ids cm.second_pass_result = (cm.second_pass_result, false) := by
  constructor
  · intro s
    exact trans_foldl_grow cm cm.first_ids (s, false)
  · unfold composites_manager.second_pass_result
    apply trans_loop_fix
    calc (direct_second_pass_set cm cm.first_ids ∪ cm.first_ids.toFinset).card
        ≤ (direct_second_pass_set cm cm.first_ids).card + cm.first_ids.toFinset.card :=
          Finset.card_union_le _ _
      _ ≤ (direct_second_pass_set cm cm.first_ids).card + (cm.first_ids.length + 1) := by
          have := cm.first_ids.toFinset_card_le
          omega

/-- C7: after `process_dependencies`, the composites are partitioned: every
registered composite is in exactly one of the first-pass and second-pass
vectors, and its `second_pass` flag is true iff it is in the second-pass
vector. -/
theorem process_dependencies_partition (cm : composites_manager) (hwf : cm.wf) :
    ∀ c ∈ cm.process_dependencies.all_composites,
      ((c.id ∈ cm.process_dependencies.first_pass_composites ∧
        c.id ∉ cm.process_dependencies.second_pass_composites) ∨
       (c.id ∈ cm.process_dependencies.second_pass_composites ∧
        c.id ∉ cm.process_dependencies.first_pass_composites)) ∧
      (c.second_pass = true ↔ c.id ∈ cm.process_dependencies.second_pass_composites) := by
  intro c hc
  have hids := first_ids_eq cm hwf
  have hfirst : cm.process_dependencies.first_pass_composites =
      cm.first_ids.filter (fun cid => ¬ cid ∈ cm.second_pass_result) := rfl
  have hsecond : cm.process_dependencies.second_pass_composites =
      cm.second_pass_composites ++
        cm.first_ids.filter (fun cid => cid ∈ cm.second_pass_result) := rfl
  have hall : cm.process_dependencies.all_composites =
      cm.all_composites.map
        (fun c => if c.id ∈ cm.second_pass_result then { c with second_pass := true } else c) :=
    rfl
  rw [hall, List.mem_map] at hc
  obtain ⟨orig, horig, hceq⟩ := hc
  have hin_ids : orig.id ∈ cm.first_ids := by
    rw [hids]
    exact List.mem_map_of_mem rspamd_composite.id horig
  rw [hfirst, hsecond, hwf.2.1, List.nil_append]
  by_cases hmem : orig.id ∈ cm.second_pass_result
  · rw [if_pos hmem] at hceq
    subst hceq
    have hsec : orig.id ∈ cm.first_ids.filter (fun cid => cid ∈ cm.second_pass_result) :=
      List.mem_filter.mpr ⟨hin_ids, by simpa using hmem⟩
    refine ⟨Or.inr ⟨hsec, ?_⟩, iff_of_true rfl hsec⟩
    intro hcontra
    have := (List.mem_filter.mp hcontra).2
    simp at this
    exact this hmem
  · rw [if_neg hmem] at hceq
    subst hceq
    have hnotsec : orig.id ∉ cm.first_ids.filter (fun cid => cid ∈ cm.second_pass_result) := by
      intro hcontra
      have := (List.mem_filter.mp hcontra).2
      simp at this
      exact hmem this
    refine ⟨Or.inl ⟨List.mem_filter.mpr ⟨hin_ids, by simpa using hmem⟩, hnotsec⟩,
      iff_of_false (by simp [hwf.2.2.2 orig horig]) hnotsec⟩

/-- C7 witness. -/
theorem process_dependencies_partition_witness :
    cm2.wf ∧
    (∀ c ∈ cm2.process_dependencies.all_composites,
      ((c.id ∈ cm2.process_dependencies.first_pass_composites ∧
        c.id ∉ cm2.process_dependencies.second_pass_composites) ∨
       (c.id ∈ cm2.process_dependencies.second_pass_composites ∧
        c.id ∉ cm2.process_dependencies.first_pass_composites)) ∧
      (c.second_pass = true ↔ c.id ∈ cm2.process_dependencies.second_pass_composites)) :=
  ⟨⟨rfl, rfl, by decide, by decide⟩,
    process_dependencies_partition cm2 ⟨rfl, rfl, by decide, by decide⟩⟩

end Rspamd
